import Mathlib

/-!
Verification of the entity-identity / registry subsystem and the
engineering-notation numeric codec of the circuit-simulator repository.

The definitions below are a shallow embedding of:
  * src/lib/number.ts        (numberMatcher, numberParser, toRound)
  * src/components/electronic-part/common.ts
      (createId, markId, deleteId, hasId, findPartComponent,
       findLineComponent, and the ElectronicCore lifecycle hooks
       created / changeId / beforeDestroy)
JS numbers are modelled as exact rationals (ℚ), NaN as `Option.none` /
an explicit `none` input, thrown exceptions as `Except.error` carrying the
thrown message, and the global used-id hash map as a duplicate-free list of
keys.
-/

set_option maxRecDepth 4000

/- Batteries marks the core rational operations `@[irreducible]`; concrete
evaluation of the embedded code on sample inputs needs them to reduce. -/
attribute [local semireducible] Rat.mul Rat.add Rat.inv Rat.sub

deriving instance DecidableEq for Except

namespace CircuitSim

/-! ### src/lib/number.ts -/

/-- Numeric value of a run of decimal digit characters, most significant
first (what JS `Number` computes on the digit part of a numeral). -/
def digitsVal (l : List Char) : ℕ :=
  l.foldl (fun acc c => 10 * acc + (c.toNat - '0'.toNat)) 0

/-- JS `Number()` on text of the shape `digits[.digits]`: the integer part
plus the fractional digits scaled down by their count. -/
def parseMantissa (l : List Char) : ℚ :=
  match l.dropWhile (fun c => c.isDigit) with
  | '.' :: f =>
    (digitsVal (l.takeWhile (fun c => c.isDigit)) : ℚ) + (digitsVal f : ℚ) / (10 : ℚ) ^ f.length
  | _ => (digitsVal (l.takeWhile (fun c => c.isDigit)) : ℚ)

/-- JS `Number()` on exponent text `-?digits`. -/
def parseExponent (l : List Char) : ℤ :=
  match l with
  | '-' :: r => -(digitsVal r : ℤ)
  | _ => (digitsVal l : ℤ)

/-- The character class `[puμnmkMG]` of the suffix arm of `numberMatcher`. -/
def isSuffixChar (c : Char) : Bool :=
  c = 'p' || c = 'u' || c = 'μ' || c = 'n' || c = 'm' || c = 'k' || c = 'M' || c = 'G'

/-- The `exp` lookup table inside `numberParser`:
`{ p: -12, u: -9, μ: -9, n: -6, m: -3, k: 3, M: 6, G: 9 }`. -/
def suffixExp (c : Char) : ℤ :=
  if c = 'p' then -12
  else if c = 'u' then -9
  else if c = 'μ' then -9
  else if c = 'n' then -6
  else if c = 'm' then -3
  else if c = 'k' then 3
  else if c = 'M' then 6
  else if c = 'G' then 9
  else 0

/-- `\d+` : one or more decimal digits, nothing else. -/
def digits1 (l : List Char) : Bool := !l.isEmpty && l.all (fun c => c.isDigit)

/-- Tail of `^\d+(\.\d+)?$` after the leading digit. -/
def mantRest : List Char → Bool
  | [] => true
  | c :: r => if c = '.' then digits1 r else c.isDigit && mantRest r

/-- First alternative of `numberMatcher`: `^\d+(?:\.\d+)?$`. -/
def plainShape : List Char → Bool
  | [] => false
  | c :: r => c.isDigit && mantRest r

/-- `-?\d+` : the exponent of the scientific alternative. -/
def expShape (l : List Char) : Bool :=
  match l with
  | '-' :: r => digits1 r
  | _ => digits1 l

/-- `\d+[eE]-?\d+$` after the decimal point of the scientific alternative. -/
def sciFracRest : List Char → Bool
  | [] => false
  | c :: r => if c = 'e' || c = 'E' then expShape r else c.isDigit && sciFracRest r

/-- `\d+[eE]-?\d+$` : fractional digits then the exponent marker. -/
def sciFrac : List Char → Bool
  | [] => false
  | c :: r => c.isDigit && sciFracRest r

/-- Tail of the scientific alternative after its leading digit. -/
def sciRest : List Char → Bool
  | [] => false
  | c :: r =>
    if c = 'e' || c = 'E' then expShape r
    else if c = '.' then sciFrac r
    else c.isDigit && sciRest r

/-- Second alternative of `numberMatcher`: `^\d+?(?:\.\d+)?[eE]-?\d+$`. -/
def sciShape : List Char → Bool
  | [] => false
  | c :: r => c.isDigit && sciRest r

/-- `\d+[puμnmkMG]$` after the decimal point of the suffixed alternative. -/
def sufFracRest : List Char → Bool
  | [] => false
  | c :: r => if isSuffixChar c then r.isEmpty else c.isDigit && sufFracRest r

/-- Fractional digits then a suffix character, then the end. -/
def sufFrac : List Char → Bool
  | [] => false
  | c :: r => c.isDigit && sufFracRest r

/-- Tail of the suffixed alternative after its leading digit. -/
def sufRest : List Char → Bool
  | [] => false
  | c :: r =>
    if isSuffixChar c then r.isEmpty
    else if c = '.' then sufFrac r
    else c.isDigit && sufRest r

/-- Third alternative of `numberMatcher`: `^\d+(?:\.\d+)?[puμnmkMG]$`. -/
def suffixShape : List Char → Bool
  | [] => false
  | c :: r => c.isDigit && sufRest r

/-- `numberMatcher` of src/lib/number.ts: the three anchored alternatives. -/
def numberMatcher (s : String) : Bool :=
  plainShape s.data || sciShape s.data || suffixShape s.data

/-- `/[eE]/.test(text)`. -/
def hasExpChar (l : List Char) : Bool := l.any (fun c => c = 'e' || c = 'E')

/-- `numberParser` of src/lib/number.ts.  A failed match yields JS `NaN`,
modelled as `none`; the scientific arm splits on the exponent marker; the
suffixed arm strips the last character and multiplies by `10 ^ exp`;
otherwise the whole text is read as a plain numeral. -/
def numberParser (text : String) : Option ℚ :=
  if !numberMatcher text then none
  else if hasExpChar text.data then
    let base := text.data.takeWhile (fun c => !(c = 'e' || c = 'E'))
    let power := (text.data.dropWhile (fun c => !(c = 'e' || c = 'E'))).drop 1
    some (parseMantissa base * (10 : ℚ) ^ parseExponent power)
  else
    match text.data.getLast? with
    | some c =>
      if isSuffixChar c then
        some (parseMantissa text.data.dropLast * (10 : ℚ) ^ suffixExp c)
      else some (parseMantissa text.data)
    | none => some (parseMantissa text.data)

/-- Fuel-driven floor of log10 on naturals (`natLog10 n = ⌊log10 n⌋` for
`n ≥ 1`); fuel `n` always suffices since the argument shrinks by a factor
of ten each step. -/
def natLog10Fuel : ℕ → ℕ → ℕ
  | 0, _ => 0
  | fuel + 1, n => if n < 10 then 0 else natLog10Fuel fuel (n / 10) + 1

/-- `⌊log10 n⌋` for `n ≥ 1`, executable by kernel reduction. -/
def natLog10 (n : ℕ) : ℕ := natLog10Fuel n n

/-- `Math.floor(Math.log10(q))` for a positive rational `q` (the only inputs
`toRound`/`rank` are specified on; nonpositive input is mapped to 0 here,
where JS would produce NaN or -Infinity — behaviour the spec leaves open). -/
def floorLog10 (q : ℚ) : ℤ :=
  if 1 ≤ q then (natLog10 q.floor.toNat : ℤ)
  else if q ≤ 0 then 0
  else
    let m := natLog10 (1 / q).floor.toNat
    if q = (10 : ℚ) ^ (-(m : ℤ)) then -(m : ℤ) else -(m : ℤ) - 1

/-- `Math.round` on a nonnegative value: round half up. -/
def jround (q : ℚ) : ℤ := ⌊q + 1 / 2⌋

/-- JS `Number.parseFloat` on the `-?digits*(.digits*)?` texts that
`toRound` builds. -/
def jsParseFloat (s : String) : ℚ :=
  match s.data with
  | '-' :: r => -(parseMantissa r)
  | l => parseMantissa l

/-- `toRound` of src/lib/number.ts: round `origin` to `bits` significant
digits.  A `none` input is JS `NaN`, on which the source throws; the string
surgery (zero padding / decimal-point insertion, including the JS
`slice(0, toInt)` / `slice(toInt)` semantics for non-positive `toInt`)
is reproduced literally. -/
def toRound (origin : Option ℚ) (bits : ℕ := 6) : Except String ℚ :=
  match origin with
  | none => .error "(number) cannot run .toRound() on NaN"
  | some o =>
    let value : ℚ := |o|
    let toInt : ℤ := floorLog10 value - bits + 1
    let transform : ℚ := (10 : ℚ) ^ toInt
    let round : String := Nat.repr (jround (value / transform)).toNat
    let sign : String := if o < 0 then "-" else ""
    let str : String :=
      if 0 < toInt then
        round ++ String.mk (List.replicate toInt.toNat '0')
      else if (bits : ℤ) ≤ -toInt then
        "0." ++ String.mk (List.replicate ((-toInt).toNat - bits) '0') ++ round
      else
        let cut : ℕ := if toInt < 0 then ((round.length : ℤ) + toInt).toNat else 0
        String.mk (round.data.take cut) ++ "." ++ String.mk (round.data.drop cut)
    .ok (jsParseFloat (sign ++ str))

/-! ### src/components/electronic-part/common.ts

The global used-id hash `mapHash` is modelled as the duplicate-free list of
keys mapped to `true`; the two registries `PartComponents`/`LineComponents`
as lists of handles.  Thrown JS exceptions are `Except.error` with the
thrown message. -/

/-- `maxNumber` — the per-type ceiling on parts. -/
def maxNumber : ℕ := 50

/-- The candidate id strings of `createId`'s loop: interpolation
of the prefix, an underscore and the decimal numeral of the counter. -/
def mkId (pre : String) (i : ℕ) : String := pre ++ "_" ++ Nat.repr i

/-- Capture group 1 of `^([^_]+)(_[^_]+)?$` applied to the requested id:
the text before the underscore, `none` when the regex does not match
(on which the source dereferences `null` and throws). -/
def idPre (id : String) : Option String :=
  let a := id.data.takeWhile (fun c => c ≠ '_')
  let r := id.data.dropWhile (fun c => c ≠ '_')
  if a.isEmpty then none
  else
    match r with
    | [] => some (String.mk a)
    | _ :: tail =>
      if tail.isEmpty || tail.any (fun c => c = '_') then none else some (String.mk a)

/-- The scan `for (i = 1; i <= max; i++)` of `createId`: the first index
`i` in a window of `fuel` candidates with `<pre>_<i>` not in the used set. -/
def freeIndex (used : List String) (pre : String) : ℕ → ℕ → Option ℕ
  | 0, _ => none
  | fuel + 1, i => if mkId pre i ∈ used then freeIndex used pre fuel (i + 1) else some i

/-- The message of the capacity exception thrown by `createId`. -/
def capacityMsg : String :=
  "(electronic) The maximum number of Devices is " ++ Nat.repr maxNumber ++ "."

/-- `createId` of common.ts.  For a part prefix the loop runs `i = 1..50`;
for the `"line"` prefix the source loop is unbounded (`max = Infinity`) and
stops at the first free index, which is at most `used.length + 1` — the
scan window used here; the theorem `createId_line_ok` below proves the
`none` branch of that window unreachable, so the bounded scan coincides
with the unbounded source loop. -/
def createId (id : String) (used : List String) : Except String String :=
  match idPre id with
  | none => .error "TypeError: id does not match the prefix pattern"
  | some pre =>
    if pre = "line" then
      match freeIndex used pre (used.length + 1) 1 with
      | some i => .ok (mkId pre i)
      | none => .error "unreachable: scan window exceeds the used set"
    else
      match freeIndex used pre maxNumber 1 with
      | some i => .ok (mkId pre i)
      | none => .error capacityMsg

/-- `markId`: `mapHash[id] = true` (a set insert, idempotent). -/
def markId (id : String) (used : List String) : List String :=
  if id ∈ used then used else id :: used

/-- `deleteId`: removes the key when present and reports whether it was. -/
def deleteId (id : String) (used : List String) : List String × Bool :=
  if id ∈ used then (used.erase id, true) else (used, false)

/-- `hasId`: `Boolean(mapHash[id])`. -/
def hasId (id : String) (used : List String) : Bool := decide (id ∈ used)

/-- An `ElectronicCore` handle; of its fields only the id (and, for
completeness, the connection list) matter to the registry subsystem. -/
structure Handle where
  id : String
  connect : List String
deriving DecidableEq, Repr

/-- The `type` tag of a handle: a part (with the type-specific prefix the
`Electronics` catalog assigns, a catalog that is not among the repository
files) or a wire. -/
inductive EntityKind where
  | part (pre : String)
  | line
deriving DecidableEq, Repr

/-- `this.type === LineType.Line ? 'line' : Electronics[this.type].pre`. -/
def prefixOf : EntityKind → String
  | .part pre => pre
  | .line => "line"

/-- The global mutable state of common.ts: `mapHash`, `PartComponents`,
`LineComponents`. -/
structure ElecState where
  mapHash : List String
  partComponents : List Handle
  lineComponents : List Handle
deriving DecidableEq, Repr

/-- The state before any entity exists. -/
def emptyState : ElecState := ⟨[], [], []⟩

/-- The id the `created` hook settles on: `this.id || createId(...)` —
an empty (falsy) id requests allocation, any other id is taken as is,
without any check against the used set. -/
def createdId (k : EntityKind) (h : Handle) (s : ElecState) : Except String String :=
  if h.id = "" then createId (prefixOf k) s.mapHash else .ok h.id

/-- The `created()` lifecycle hook: settle the id, mark it, push the handle
onto the registry of its kind.  A `createId` exception propagates before
any mutation. -/
def created (k : EntityKind) (h : Handle) (s : ElecState) : Except String ElecState :=
  match createdId k h s with
  | .error e => .error e
  | .ok a =>
    match k with
    | .line => .ok { s with mapHash := markId a s.mapHash,
                            lineComponents := s.lineComponents ++ [{ h with id := a }] }
    | .part _ => .ok { s with mapHash := markId a s.mapHash,
                              partComponents := s.partComponents ++ [{ h with id := a }] }

/-- The `@Watch('id') changeId(newId, oldId)` hook on the used set:
`markId(newId)` then `deleteId(oldId)` — mark before release. -/
def changeId (newId oldId : String) (used : List String) : List String :=
  (deleteId oldId (markId newId used)).1

/-- Modelled from the spec: `Array.prototype.delete` (defined in
src/lib/utils, which is not among the repository files) — `RemoveWhere`
"removes the first handle in the matching collection for which `predicate`
holds; no-op if none match" (spec section 4.3).  `List.eraseP` is exactly
that operation. -/
def removeWhere (p : Handle → Bool) (l : List Handle) : List Handle := l.eraseP p

/-- The `beforeDestroy()` hook: release the id, drop the handle from the
registry of its kind. -/
def beforeDestroy (k : EntityKind) (selfId : String) (s : ElecState) : ElecState :=
  match k with
  | .line => { s with mapHash := (deleteId selfId s.mapHash).1,
                      lineComponents := removeWhere (fun l => l.id = selfId) s.lineComponents }
  | .part _ => { s with mapHash := (deleteId selfId s.mapHash).1,
                        partComponents := removeWhere (fun p => p.id = selfId) s.partComponents }

/-- In-place rename of the first handle carrying `oldId` (the source
mutates `handle.id`, which fires the `changeId` watcher). -/
def setFirstId (oldId newId : String) : List Handle → List Handle
  | [] => []
  | h :: t => if h.id = oldId then { h with id := newId } :: t else h :: setFirstId oldId newId t

/-- A rename request against a live handle of the given kind: update the
handle's id in place and run the `changeId` watcher on the used set; a
rename of an id no handle of that kind carries does nothing. -/
def renameEntity (k : EntityKind) (oldId newId : String) (s : ElecState) : ElecState :=
  match k with
  | .line =>
    if s.lineComponents.any (fun l => l.id = oldId) then
      { s with mapHash := changeId newId oldId s.mapHash,
               lineComponents := setFirstId oldId newId s.lineComponents }
    else s
  | .part _ =>
    if s.partComponents.any (fun p => p.id = oldId) then
      { s with mapHash := changeId newId oldId s.mapHash,
               partComponents := setFirstId oldId newId s.partComponents }
    else s

/-- A match of `/[a-zA-Z]+_[a-zA-Z0-9]+/` anchored at the start of `l`:
the maximal letter run, an underscore, the maximal alphanumeric run. -/
def tokenAt (l : List Char) : Option (List Char) :=
  let letters := l.takeWhile Char.isAlpha
  if letters.isEmpty then none
  else
    match l.drop letters.length with
    | '_' :: r2 =>
      let alnum := r2.takeWhile Char.isAlphanum
      if alnum.isEmpty then none else some (letters ++ '_' :: alnum)
    | _ => none

/-- `value.match(/[a-zA-Z]+_[a-zA-Z0-9]+/)` — the leftmost match of the id
token pattern in free text (the JS engine retries at the next position
after a failed start). -/
def extractToken : List Char → Option (List Char)
  | [] => none
  | c :: rest =>
    match tokenAt (c :: rest) with
    | some t => some t
    | none => extractToken rest

/-- `findPartComponent` of common.ts on a string query: the query is first
normalized to the id token extracted from it (`match(...)![0]`, a `null`
dereference — modelled as a thrown TypeError — when no token occurs), then
the first part with that exact id is returned; absence throws. -/
def findPartComponent (value : String) (parts : List Handle) : Except String Handle :=
  match extractToken value.data with
  | none => .error ("TypeError: no id token in " ++ value)
  | some tok =>
    match parts.find? (fun p => p.id = String.mk tok) with
    | some r => .ok r
    | none => .error ("Can not find this part: " ++ value)

/-- `findLineComponent` of common.ts on a string query: the raw query is
compared against the wire ids — no token normalization; absence throws. -/
def findLineComponent (value : String) (lines : List Handle) : Except String Handle :=
  match lines.find? (fun l => l.id = value) with
  | some r => .ok r
  | none => .error ("Can not find this line: " ++ value)

/-- One lifecycle call of the spec's Entity Lifecycle Controller, §4.4. -/
inductive Op where
  | create (k : EntityKind) (h : Handle)
  | destroy (k : EntityKind) (id : String)
  | rename (k : EntityKind) (oldId newId : String)
deriving DecidableEq, Repr

/-- Execute one call on the global state.  A thrown creation (capacity)
leaves the state untouched — the exception propagates before any
mutation. -/
def step (s : ElecState) : Op → ElecState
  | .create k h =>
    match created k h s with
    | .ok s' => s'
    | .error _ => s
  | .destroy k id => beforeDestroy k id s
  | .rename k o n => renameEntity k o n s

/-- Run a call sequence. -/
def exec (s : ElecState) (ops : List Op) : ElecState := ops.foldl step s

/-- The ids of the live entities, parts and wires combined. -/
def liveIds (s : ElecState) : List String :=
  s.partComponents.map Handle.id ++ s.lineComponents.map Handle.id

/-- The registry a kind selects. -/
def regHandles (k : EntityKind) (s : ElecState) : List Handle :=
  match k with
  | .line => s.lineComponents
  | .part _ => s.partComponents

/-- The side conditions under which a call is issued against live state:
a caller-chosen id is not currently marked used, a destroy targets a live
handle of its kind, a rename targets a live handle of its kind and renames
it to an id not currently marked used.  (The source checks none of these;
the counterexample to the unrestricted uniqueness claim exploits that.) -/
def validOp (s : ElecState) : Op → Bool
  | .create _ h => h.id = "" || !(decide (h.id ∈ s.mapHash))
  | .destroy k id => (regHandles k s).any (fun x => x.id = id)
  | .rename k o n => (regHandles k s).any (fun x => x.id = o) && !(decide (n ∈ s.mapHash))

/-- Every call of the sequence is valid in the state it runs in. -/
def goodTrace : ElecState → List Op → Bool
  | _, [] => true
  | s, op :: ops => validOp s op && goodTrace (step s op) ops

/-- `n` consecutive allocating creations with one prefix, acting on the
used set alone (`createId` then `markId`, as `created` does). -/
def allocN (pre : String) : ℕ → List String → Except String (List String)
  | 0, used => .ok used
  | n + 1, used =>
    match createId pre used with
    | .ok a => allocN pre n (markId a used)
    | .error e => .error e

/-- The inductive invariant of the registry subsystem: live ids are
pairwise distinct, every live id is marked used, and the used set is
duplicate-free. -/
def InvS (s : ElecState) : Prop :=
  (liveIds s).Nodup ∧ (∀ i ∈ liveIds s, i ∈ s.mapHash) ∧ s.mapHash.Nodup

end CircuitSim


/-! ### Supporting lemmas -/

namespace CircuitSim

/-- `Nat.toDigitsCore` with enough fuel prepends the decimal digits of `n`
(most significant first) to its accumulator. -/
theorem toDigitsCore_eq_digits :
    ∀ (f : ℕ) {n : ℕ} (l : List Char), 0 < n → n < f →
      Nat.toDigitsCore 10 f n l = ((Nat.digits 10 n).map Nat.digitChar).reverse ++ l := by
  intro f
  induction f with
  | zero => intro n l hn hf; omega
  | succ f ih =>
    intro n l hn hf
    rw [Nat.digits_def' (by norm_num : 1 < 10) hn]
    show (if n / 10 = 0 then Nat.digitChar (n % 10) :: l
          else Nat.toDigitsCore 10 f (n / 10) (Nat.digitChar (n % 10) :: l)) = _
    by_cases h0 : n / 10 = 0
    · simp [h0]
    · rw [if_neg h0, ih (Nat.digitChar (n % 10) :: l) (Nat.pos_of_ne_zero h0)
        (by have := Nat.div_lt_self hn (by norm_num : 1 < 10); omega),
        Nat.digits_def' (by norm_num : 1 < 10) (Nat.pos_of_ne_zero h0)]
      simp [Nat.digits_def' (by norm_num : 1 < 10) (Nat.pos_of_ne_zero h0)]

/-- `Nat.repr` of a positive number is the reversed digit-character list. -/
theorem repr_eq_digits {n : ℕ} (hn : 0 < n) :
    Nat.repr n = String.mk (((Nat.digits 10 n).map Nat.digitChar).reverse) := by
  show (Nat.toDigitsCore 10 (n + 1) n []).asString = _
  rw [toDigitsCore_eq_digits (n + 1) [] hn (Nat.lt_succ_self n)]
  simp [List.asString]

/-- `Nat.digitChar` tells decimal digits apart. -/
theorem digitChar_inj {a b : ℕ} (ha : a < 10) (hb : b < 10)
    (h : Nat.digitChar a = Nat.digitChar b) : a = b := by
  interval_cases a <;> interval_cases b <;> simp_all [Nat.digitChar]

/-- Mapping `Nat.digitChar` over lists of decimal digits is injective. -/
theorem map_digitChar_inj :
    ∀ {l1 l2 : List ℕ}, (∀ x ∈ l1, x < 10) → (∀ x ∈ l2, x < 10) →
      l1.map Nat.digitChar = l2.map Nat.digitChar → l1 = l2 := by
  intro l1
  induction l1 with
  | nil => intro l2 _ _ h; cases l2 <;> simp_all
  | cons a t ih =>
    intro l2 h1 h2 h
    cases l2 with
    | nil => simp_all
    | cons b t2 =>
      simp only [List.map_cons, List.cons.injEq] at h
      have hab : a = b :=
        digitChar_inj (h1 a (by simp)) (h2 b (by simp)) h.1
      have := ih (fun x hx => h1 x (by simp [hx])) (fun x hx => h2 x (by simp [hx])) h.2
      simp [hab, this]

/-- `Nat.repr` is injective on positive numbers. -/
theorem repr_inj_pos {m n : ℕ} (hm : 0 < m) (hn : 0 < n)
    (h : Nat.repr m = Nat.repr n) : m = n := by
  rw [repr_eq_digits hm, repr_eq_digits hn] at h
  have hdata : ((Nat.digits 10 m).map Nat.digitChar).reverse
      = ((Nat.digits 10 n).map Nat.digitChar).reverse := congrArg String.data h
  have hmap := List.reverse_injective hdata
  have hdig := map_digitChar_inj
    (fun x hx => Nat.digits_lt_base (by norm_num) hx)
    (fun x hx => Nat.digits_lt_base (by norm_num) hx) hmap
  exact Nat.digits.injective 10 hdig

/-- Candidate ids with one prefix and distinct positive indices differ. -/
theorem mkId_inj {pre : String} {a b : ℕ} (ha : 0 < a) (hb : 0 < b)
    (h : mkId pre a = mkId pre b) : a = b := by
  have hd : (pre ++ "_").data ++ (Nat.repr a).data
      = (pre ++ "_").data ++ (Nat.repr b).data := by
    simpa [mkId, String.data_append] using congrArg String.data h
  have := List.append_cancel_left hd
  exact repr_inj_pos ha hb (by apply String.ext; exact this)

/-- What a successful scan returns: the first free index of its window. -/
theorem freeIndex_some {used : List String} {pre : String} :
    ∀ {fuel start j : ℕ}, freeIndex used pre fuel start = some j →
      start ≤ j ∧ j < start + fuel ∧ mkId pre j ∉ used ∧
        ∀ m, start ≤ m → m < j → mkId pre m ∈ used := by
  intro fuel
  induction fuel with
  | zero => intro start j h; simp [freeIndex] at h
  | succ fuel ih =>
    intro start j h
    rw [freeIndex] at h
    by_cases hmem : mkId pre start ∈ used
    · rw [if_pos hmem] at h
      obtain ⟨h1, h2, h3, h4⟩ := ih h
      refine ⟨by omega, by omega, h3, fun m hm1 hm2 => ?_⟩
      rcases Nat.eq_or_lt_of_le hm1 with rfl | hlt
      · exact hmem
      · exact h4 m hlt hm2
    · rw [if_neg hmem] at h
      cases h
      exact ⟨le_refl _, by omega, hmem, fun m hm1 hm2 => by omega⟩

/-- What a failed scan means: every candidate of the window is used. -/
theorem freeIndex_none {used : List String} {pre : String} :
    ∀ {fuel start : ℕ}, freeIndex used pre fuel start = none →
      ∀ m, start ≤ m → m < start + fuel → mkId pre m ∈ used := by
  intro fuel
  induction fuel with
  | zero => intro start _ m h1 h2; omega
  | succ fuel ih =>
    intro start h m h1 h2
    rw [freeIndex] at h
    by_cases hmem : mkId pre start ∈ used
    · rw [if_pos hmem] at h
      rcases Nat.eq_or_lt_of_le h1 with rfl | hlt
      · exact hmem
      · exact ih h m hlt (by omega)
    · rw [if_neg hmem] at h
      cases h

/-- Pigeonhole: a window one wider than the used set always has a free
`line` candidate, so the unbounded source loop terminates within it. -/
theorem freeIndex_line_isSome (used : List String) :
    freeIndex used "line" (used.length + 1) 1 ≠ none := by
  intro h
  have hall := freeIndex_none h
  set L := used.length with hL
  have hsub : ((List.range (L + 1)).map (fun k => mkId "line" (k + 1))) ⊆ used := by
    intro x hx
    obtain ⟨k, hk, rfl⟩ := List.mem_map.1 hx
    have hk' := List.mem_range.1 hk
    exact hall (k + 1) (by omega) (by omega)
  have hnd : ((List.range (L + 1)).map (fun k => mkId "line" (k + 1))).Nodup := by
    refine List.Nodup.map_on ?_ (List.nodup_range _)
    intro x hx y hy hxy
    have := mkId_inj (Nat.succ_pos x) (Nat.succ_pos y) hxy
    omega
  have hlen : ((List.range (L + 1)).map (fun k => mkId "line" (k + 1))).length ≤ L :=
    (hnd.subperm hsub).length_le
  simp only [List.length_map, List.length_range] at hlen
  omega

end CircuitSim

namespace CircuitSim

/-- `createId` on a non-`line` prefix: either the first free candidate in
`1..50` is returned, or every candidate is used and the capacity exception
is thrown. -/
theorem createId_part_spec {id pre : String} (used : List String)
    (hp : idPre id = some pre) (hne : pre ≠ "line") :
    (∃ j, 1 ≤ j ∧ j ≤ maxNumber ∧ createId id used = .ok (mkId pre j) ∧
        mkId pre j ∉ used ∧ ∀ m, 1 ≤ m → m < j → mkId pre m ∈ used) ∨
      (createId id used = .error capacityMsg ∧
        ∀ m, 1 ≤ m → m ≤ maxNumber → mkId pre m ∈ used) := by
  unfold createId
  rw [hp]
  simp only [if_neg hne]
  cases hfi : freeIndex used pre maxNumber 1 with
  | none =>
    refine Or.inr ⟨rfl, fun m hm1 hm2 => ?_⟩
    exact freeIndex_none hfi m hm1 (by omega)
  | some j =>
    obtain ⟨h1, h2, h3, h4⟩ := freeIndex_some hfi
    exact Or.inl ⟨j, h1, by omega, rfl, h3, h4⟩

/-- `createId` on the `line` prefix always succeeds, with the first free
candidate (the unbounded source loop never throws). -/
theorem createId_line_spec {id : String} (used : List String)
    (hp : idPre id = some "line") :
    ∃ j, 1 ≤ j ∧ createId id used = .ok (mkId "line" j) ∧
      mkId "line" j ∉ used ∧ ∀ m, 1 ≤ m → m < j → mkId "line" m ∈ used := by
  unfold createId
  rw [hp]
  simp only [if_pos rfl]
  cases hfi : freeIndex used "line" (used.length + 1) 1 with
  | none => exact absurd hfi (freeIndex_line_isSome used)
  | some j =>
    obtain ⟨h1, h2, h3, h4⟩ := freeIndex_some hfi
    exact ⟨j, h1, rfl, h3, h4⟩

/-- A successful allocation returns an id not yet in the used set. -/
theorem createId_ok_fresh {id a : String} {used : List String}
    (h : createId id used = .ok a) : a ∉ used := by
  cases hip : idPre id with
  | none => simp [createId, hip] at h
  | some pre =>
    by_cases hl : pre = "line"
    · subst hl
      obtain ⟨j, _, heq, hfree, _⟩ := createId_line_spec used hip
      rw [heq] at h
      cases h
      exact hfree
    · rcases createId_part_spec used hip hl with ⟨j, _, _, heq, hfree, _⟩ | ⟨heq, _⟩
      · rw [heq] at h
        cases h
        exact hfree
      · rw [heq] at h
        cases h

/-- Membership after `markId`. -/
theorem mem_markId {x a : String} {u : List String} :
    x ∈ markId a u ↔ x = a ∨ x ∈ u := by
  unfold markId
  by_cases h : a ∈ u
  · rw [if_pos h]
    constructor
    · exact fun hx => Or.inr hx
    · rintro (rfl | hx)
      exacts [h, hx]
  · rw [if_neg h]
    exact List.mem_cons

/-- `markId` keeps the used set duplicate-free. -/
theorem markId_nodup {a : String} {u : List String} (h : u.Nodup) :
    (markId a u).Nodup := by
  unfold markId
  by_cases hm : a ∈ u
  · rwa [if_pos hm]
  · rw [if_neg hm]
    exact List.nodup_cons.2 ⟨hm, h⟩

/-- The used set after `deleteId` is an erase. -/
theorem deleteId_fst (a : String) (u : List String) :
    (deleteId a u).1 = u.erase a := by
  unfold deleteId
  by_cases h : a ∈ u
  · rw [if_pos h]
  · rw [if_neg h, List.erase_of_not_mem h]

/-- `hasId` is the membership test. -/
theorem hasId_eq_false {a : String} {u : List String} :
    hasId a u = false ↔ a ∉ u := by
  simp [hasId]

/-- Dropping a middle element of a duplicate-free list: the rest is
duplicate-free and no longer contains it. -/
theorem nodup_drop_mid {α : Type} {A B : List α} {o : α}
    (hnd : (A ++ o :: B).Nodup) : (A ++ B).Nodup ∧ o ∉ A ++ B := by
  have h := List.nodup_middle.1 hnd
  exact ⟨(List.nodup_cons.1 h).2, (List.nodup_cons.1 h).1⟩

/-- Replacing a middle element of a duplicate-free list by a fresh one. -/
theorem nodup_replace_mid {α : Type} {A B : List α} {o n : α}
    (hnd : (A ++ o :: B).Nodup) (hn : n ∉ A ++ B) : (A ++ n :: B).Nodup := by
  exact List.nodup_middle.2 (List.nodup_cons.2 ⟨hn, (nodup_drop_mid hnd).1⟩)

/-- Where `setFirstId` acts: the registry splits at the first handle
carrying the old id, and exactly that handle's id is replaced. -/
theorem setFirstId_split {o n : String} :
    ∀ {l : List Handle}, (∃ x ∈ l, x.id = o) →
      ∃ l1 x l2, l = l1 ++ x :: l2 ∧ x.id = o ∧ (∀ y ∈ l1, y.id ≠ o) ∧
        setFirstId o n l = l1 ++ { x with id := n } :: l2 := by
  intro l
  induction l with
  | nil => rintro ⟨x, hx, _⟩; cases hx
  | cons h t ih =>
    rintro ⟨x, hx, hxid⟩
    by_cases hh : h.id = o
    · exact ⟨[], h, t, rfl, hh, by simp, by rw [setFirstId, if_pos hh]; rfl⟩
    · have hxt : x ∈ t := by
        rcases List.mem_cons.1 hx with rfl | ht
        · exact absurd hxid hh
        · exact ht
      obtain ⟨l1, y, l2, hsplit, hyid, hl1, hset⟩ := ih ⟨x, hxt, hxid⟩
      refine ⟨h :: l1, y, l2, by rw [hsplit]; rfl, hyid, ?_, ?_⟩
      · intro z hz
        rcases List.mem_cons.1 hz with rfl | hz'
        · exact hh
        · exact hl1 z hz'
      · rw [setFirstId, if_neg hh, hset]
        rfl

end CircuitSim

namespace CircuitSim

/-- A singleton appended to a duplicate-free list it does not occur in. -/
theorem nodup_append_singleton {α : Type} {l : List α} {a : α}
    (h : l.Nodup) (ha : a ∉ l) : (l ++ [a]).Nodup := by
  have : l ++ [a] = l ++ a :: ([] : List α) := rfl
  rw [this]
  exact List.nodup_middle.2 (List.nodup_cons.2 ⟨by simpa using ha, by simpa using h⟩)

/-- The id `created` settles on is never already marked used, as long as a
caller-chosen id is fresh. -/
theorem createdId_fresh {k : EntityKind} {h : Handle} {s : ElecState} {a : String}
    (hv : h.id = "" ∨ h.id ∉ s.mapHash) (hcid : createdId k h s = .ok a) :
    a ∉ s.mapHash := by
  unfold createdId at hcid
  by_cases hid : h.id = ""
  · rw [if_pos hid] at hcid
    exact createId_ok_fresh hcid
  · rw [if_neg hid] at hcid
    cases hcid
    exact hv.resolve_left hid

/-- A valid creation preserves the invariant. -/
theorem create_inv {s : ElecState} {k : EntityKind} {h : Handle}
    (hs : InvS s) (hv : h.id = "" ∨ h.id ∉ s.mapHash) :
    InvS (step s (.create k h)) := by
  show InvS (match created k h s with | .ok s' => s' | .error _ => s)
  cases hc : created k h s with
  | error e => exact hs
  | ok s' =>
    unfold created at hc
    cases hcid : createdId k h s with
    | error e => rw [hcid] at hc; cases hc
    | ok a =>
      rw [hcid] at hc
      have ha : a ∉ s.mapHash := createdId_fresh hv hcid
      obtain ⟨hnd, hsub, hmH⟩ := hs
      have halive : a ∉ liveIds s := fun hmem => ha (hsub a hmem)
      rw [liveIds, List.mem_append] at halive
      cases k with
      | line =>
        simp only [] at hc
        injection hc with hc
        subst hc
        refine ⟨?_, ?_, markId_nodup hmH⟩
        · simp only [liveIds, List.map_append, List.map_cons, List.map_nil]
          rw [← List.append_assoc]
          refine nodup_append_singleton (by simpa [liveIds] using hnd) ?_
          simpa using halive
        · intro i hi
          simp only [liveIds, List.map_append, List.map_cons, List.map_nil,
            List.mem_append, List.mem_singleton] at hi
          rw [mem_markId]
          rcases hi with hi | hi | rfl
          · exact Or.inr (hsub i (by simp [liveIds, hi]))
          · exact Or.inr (hsub i (by simp [liveIds, hi]))
          · exact Or.inl rfl
      | part pre =>
        simp only [] at hc
        injection hc with hc
        subst hc
        refine ⟨?_, ?_, markId_nodup hmH⟩
        · simp only [liveIds, List.map_append, List.map_cons, List.map_nil]
          rw [List.append_assoc, List.singleton_append]
          refine List.nodup_middle.2 (List.nodup_cons.2 ⟨?_, by simpa [liveIds] using hnd⟩)
          simpa using halive
        · intro i hi
          simp only [liveIds, List.map_append, List.map_cons, List.map_nil,
            List.mem_append, List.mem_singleton] at hi
          rw [mem_markId]
          rcases hi with (hi | rfl) | hi
          · exact Or.inr (hsub i (by simp [liveIds, hi]))
          · exact Or.inl rfl
          · exact Or.inr (hsub i (by simp [liveIds, hi]))

end CircuitSim

namespace CircuitSim

/-- A valid destruction preserves the invariant. -/
theorem destroy_inv {s : ElecState} {k : EntityKind} {id : String}
    (hs : InvS s) (hv : validOp s (.destroy k id) = true) :
    InvS (step s (.destroy k id)) := by
  obtain ⟨hnd, hsub, hmH⟩ := hs
  have hvx : ∃ x ∈ regHandles k s, x.id = id := by
    simpa [validOp, List.any_eq_true] using hv
  obtain ⟨x, hx, hxid⟩ := hvx
  cases k with
  | part pre =>
    simp only [regHandles] at hx
    obtain ⟨c, l1, l2, hl1, hpc, hsplit, herase⟩ :=
      List.exists_of_eraseP (p := fun y => y.id = id) hx (by simp [hxid])
    have hcid : c.id = id := by simpa using hpc
    show InvS { s with mapHash := (deleteId id s.mapHash).1,
                       partComponents := removeWhere (fun p => p.id = id) s.partComponents }
    rw [liveIds] at hnd hsub
    rw [hsplit] at hnd hsub
    simp only [List.map_append, List.map_cons, List.append_assoc, List.cons_append,
      hcid] at hnd hsub
    obtain ⟨hrest, hout⟩ := nodup_drop_mid hnd
    refine ⟨?_, ?_, by rw [deleteId_fst]; exact List.Nodup.erase id hmH⟩
    · simp only [liveIds, removeWhere, herase, List.map_append, List.append_assoc]
      exact hrest
    · intro i hi
      simp only [liveIds, removeWhere, herase, List.map_append, List.append_assoc] at hi
      rw [deleteId_fst, List.Nodup.mem_erase_iff hmH]
      have hne : i ≠ id := fun he => hout (he ▸ hi)
      refine ⟨hne, hsub i ?_⟩
      simp only [List.mem_append, List.mem_cons] at hi ⊢
      tauto
  | line =>
    simp only [regHandles] at hx
    obtain ⟨c, l1, l2, hl1, hpc, hsplit, herase⟩ :=
      List.exists_of_eraseP (p := fun y => y.id = id) hx (by simp [hxid])
    have hcid : c.id = id := by simpa using hpc
    show InvS { s with mapHash := (deleteId id s.mapHash).1,
                       lineComponents := removeWhere (fun l => l.id = id) s.lineComponents }
    rw [liveIds] at hnd hsub
    rw [hsplit] at hnd hsub
    simp only [List.map_append, List.map_cons, hcid] at hnd hsub
    rw [← List.append_assoc] at hnd
    obtain ⟨hrest, hout⟩ := nodup_drop_mid hnd
    refine ⟨?_, ?_, by rw [deleteId_fst]; exact List.Nodup.erase id hmH⟩
    · simp only [liveIds, removeWhere, herase, List.map_append]
      rw [← List.append_assoc]
      exact hrest
    · intro i hi
      simp only [liveIds, removeWhere, herase, List.map_append] at hi
      rw [deleteId_fst, List.Nodup.mem_erase_iff hmH]
      rw [← List.append_assoc] at hi
      have hne : i ≠ id := fun he => hout (he ▸ hi)
      refine ⟨hne, hsub i ?_⟩
      simp only [List.mem_append, List.mem_cons] at hi ⊢
      tauto

/-- A valid rename preserves the invariant. -/
theorem rename_inv {s : ElecState} {k : EntityKind} {o n : String}
    (hs : InvS s) (hv : validOp s (.rename k o n) = true) :
    InvS (step s (.rename k o n)) := by
  obtain ⟨hnd, hsub, hmH⟩ := hs
  have hv' : (∃ x ∈ regHandles k s, x.id = o) ∧ n ∉ s.mapHash := by
    simpa [validOp, List.any_eq_true, Bool.and_eq_true] using hv
  obtain ⟨⟨x, hx, hxid⟩, hnfresh⟩ := hv'
  cases k with
  | part pre =>
    simp only [regHandles] at hx
    have hany : s.partComponents.any (fun p => p.id = o) = true := by
      simp only [List.any_eq_true]
      exact ⟨x, hx, by simp [hxid]⟩
    obtain ⟨l1, c, l2, hsplit, hcid, hl1, hset⟩ :=
      setFirstId_split (n := n) (⟨x, hx, hxid⟩ : ∃ y ∈ s.partComponents, y.id = o)
    show InvS (if s.partComponents.any (fun p => p.id = o) then
        { s with mapHash := changeId n o s.mapHash,
                 partComponents := setFirstId o n s.partComponents }
      else s)
    rw [if_pos hany]
    rw [liveIds] at hnd hsub
    rw [hsplit] at hnd hsub
    simp only [List.map_append, List.map_cons, List.append_assoc, List.cons_append,
      hcid] at hnd hsub
    obtain ⟨hrest, hout⟩ := nodup_drop_mid hnd
    have hoin : o ∈ s.mapHash := hsub o (by simp)
    have hno : n ≠ o := fun he => hnfresh (he ▸ hoin)
    have hchange : changeId n o s.mapHash = n :: s.mapHash.erase o := by
      rw [changeId, deleteId_fst, markId, if_neg hnfresh,
        List.erase_cons_tail (by simp [hno])]
    have hnlive :
        n ∉ l1.map Handle.id ++ (l2.map Handle.id ++ s.lineComponents.map Handle.id) := by
      intro hmem
      refine hnfresh (hsub n ?_)
      simp only [List.mem_append, List.mem_cons] at hmem ⊢
      tauto
    refine ⟨?_, ?_, ?_⟩
    · simp only [liveIds, hset, List.map_append, List.map_cons, List.append_assoc,
        List.cons_append]
      exact nodup_replace_mid hnd hnlive
    · intro i hi
      simp only [liveIds, hset, List.map_append, List.map_cons, List.append_assoc,
        List.cons_append, List.mem_append, List.mem_cons] at hi
      rw [hchange, List.mem_cons]
      by_cases hin : i = n
      · exact Or.inl hin
      · have hio : i ≠ o := by
          intro he
          subst he
          apply hout
          simp only [List.mem_append]
          tauto
        refine Or.inr ((List.Nodup.mem_erase_iff hmH).2 ⟨hio, hsub i ?_⟩)
        simp only [List.mem_append, List.mem_cons]
        tauto
    · rw [hchange]
      refine List.nodup_cons.2 ⟨fun hmem => hnfresh (List.mem_of_mem_erase hmem), ?_⟩
      exact List.Nodup.erase o hmH
  | line =>
    simp only [regHandles] at hx
    have hany : s.lineComponents.any (fun l => l.id = o) = true := by
      simp only [List.any_eq_true]
      exact ⟨x, hx, by simp [hxid]⟩
    obtain ⟨l1, c, l2, hsplit, hcid, hl1, hset⟩ :=
      setFirstId_split (n := n) (⟨x, hx, hxid⟩ : ∃ y ∈ s.lineComponents, y.id = o)
    show InvS (if s.lineComponents.any (fun l => l.id = o) then
        { s with mapHash := changeId n o s.mapHash,
                 lineComponents := setFirstId o n s.lineComponents }
      else s)
    rw [if_pos hany]
    rw [liveIds] at hnd hsub
    rw [hsplit] at hnd hsub
    simp only [List.map_append, List.map_cons, hcid] at hnd hsub
    rw [← List.append_assoc] at hnd
    obtain ⟨hrest, hout⟩ := nodup_drop_mid hnd
    have hoin : o ∈ s.mapHash := hsub o (by simp)
    have hno : n ≠ o := fun he => hnfresh (he ▸ hoin)
    have hchange : changeId n o s.mapHash = n :: s.mapHash.erase o := by
      rw [changeId, deleteId_fst, markId, if_neg hnfresh,
        List.erase_cons_tail (by simp [hno])]
    have hnlive :
        n ∉ (s.partComponents.map Handle.id ++ l1.map Handle.id) ++ l2.map Handle.id := by
      intro hmem
      refine hnfresh (hsub n ?_)
      simp only [List.mem_append, List.mem_cons] at hmem ⊢
      tauto
    refine ⟨?_, ?_, ?_⟩
    · simp only [liveIds, hset, List.map_append, List.map_cons]
      rw [← List.append_assoc]
      exact nodup_replace_mid hnd hnlive
    · intro i hi
      simp only [liveIds, hset, List.map_append, List.map_cons, List.mem_append,
        List.mem_cons] at hi
      rw [hchange, List.mem_cons]
      by_cases hin : i = n
      · exact Or.inl hin
      · have hio : i ≠ o := by
          intro he
          subst he
          apply hout
          simp only [List.mem_append]
          tauto
        refine Or.inr ((List.Nodup.mem_erase_iff hmH).2 ⟨hio, hsub i ?_⟩)
        simp only [List.mem_append, List.mem_cons]
        tauto
    · rw [hchange]
      refine List.nodup_cons.2 ⟨fun hmem => hnfresh (List.mem_of_mem_erase hmem), ?_⟩
      exact List.Nodup.erase o hmH

end CircuitSim

namespace CircuitSim

/-- Any valid call preserves the invariant. -/
theorem step_inv {s : ElecState} {op : Op} (hs : InvS s) (hv : validOp s op = true) :
    InvS (step s op) := by
  cases op with
  | create k h =>
    refine create_inv hs ?_
    simpa [validOp, Bool.or_eq_true] using hv
  | destroy k id => exact destroy_inv hs hv
  | rename k o n => exact rename_inv hs hv

/-- The invariant survives any good call sequence. -/
theorem exec_inv : ∀ {ops : List Op} {s : ElecState},
    InvS s → goodTrace s ops = true → InvS (exec s ops) := by
  intro ops
  induction ops with
  | nil => exact fun hs _ => hs
  | cons op ops ih =>
    intro s hs hg
    rw [goodTrace, Bool.and_eq_true] at hg
    exact ih (step_inv hs hg.1) hg.2

/-- A good call sequence stays good on every one of its front segments. -/
theorem goodTrace_of_append : ∀ {l1 l2 : List Op} {s : ElecState},
    goodTrace s (l1 ++ l2) = true → goodTrace s l1 = true := by
  intro l1
  induction l1 with
  | nil => exact fun _ => rfl
  | cons op ops ih =>
    intro l2 s hg
    rw [List.cons_append, goodTrace, Bool.and_eq_true] at hg
    rw [goodTrace, Bool.and_eq_true]
    exact ⟨hg.1, ih hg.2⟩

/-- The empty diagram satisfies the invariant. -/
theorem InvS_empty : InvS emptyState :=
  ⟨List.nodup_nil, fun _ hi => absurd hi (List.not_mem_nil _), List.nodup_nil⟩

end CircuitSim

namespace CircuitSim

/-- C1, counterexample: the claim "for every sequence of CreateEntity /
DestroyEntity / RenameEntity calls (including creations that supply a
caller-chosen id) the live ids are pairwise distinct" is false on the code:
two creations both supplying the caller-chosen id "R_1" leave two live
parts with the same id, because `created()` checks a caller-supplied id
against nothing. -/
theorem liveIds_nodup_counterexample :
    liveIds (exec emptyState
        [.create (.part "R") ⟨"R_1", []⟩, .create (.part "R") ⟨"R_1", []⟩])
      = ["R_1", "R_1"] ∧
    ¬ (liveIds (exec emptyState
        [.create (.part "R") ⟨"R_1", []⟩, .create (.part "R") ⟨"R_1", []⟩])).Nodup := by
  exact ⟨by decide, by decide⟩

/-- C1 (amended): for every sequence of CreateEntity / DestroyEntity /
RenameEntity calls starting from the empty diagram in which every creation
that supplies a caller-chosen id supplies one not currently marked used,
every destroy targets a live entity of its kind, and every rename targets a
live entity of its kind and renames it to an id not currently marked used,
the ids of live entities — parts and wires combined — are pairwise
distinct at every observable point (after every front segment of the
sequence). -/
theorem liveIds_nodup_of_goodTrace (ops front rest : List Op)
    (hsplit : ops = front ++ rest) (hgood : goodTrace emptyState ops = true) :
    (liveIds (exec emptyState front)).Nodup := by
  subst hsplit
  exact (exec_inv InvS_empty (goodTrace_of_append hgood)).1

/-- C1 witness: a five-call good trace — two allocating creations, one
caller-chosen fresh id, a rename and a destroy — executed in full. -/
theorem liveIds_nodup_of_goodTrace_witness :
    (liveIds (exec emptyState
        [.create (.part "R") ⟨"", []⟩, .create .line ⟨"", []⟩,
         .create (.part "R") ⟨"C_2", []⟩,
         .rename (.part "R") "R_1" "R_9",
         .destroy .line "line_1"])).Nodup :=
  liveIds_nodup_of_goodTrace
    [.create (.part "R") ⟨"", []⟩, .create .line ⟨"", []⟩,
     .create (.part "R") ⟨"C_2", []⟩,
     .rename (.part "R") "R_1" "R_9",
     .destroy .line "line_1"]
    [.create (.part "R") ⟨"", []⟩, .create .line ⟨"", []⟩,
     .create (.part "R") ⟨"C_2", []⟩,
     .rename (.part "R") "R_1" "R_9",
     .destroy .line "line_1"]
    [] (by simp) (by decide)

/-- C2: `createId` scans `1..50` for a part prefix and returns the first
candidate not in the used set, throwing the capacity message when all 50
are taken; for the `"line"` prefix the scan is unbounded and always returns
the first free candidate; concretely, 50 allocating creations with the
prefix `R` from an empty used set all succeed and the 51st throws
`CapacityExceeded`. -/
theorem createId_scan_spec :
    (∀ (id pre : String) (used : List String), idPre id = some pre → pre ≠ "line" →
      (∃ j, 1 ≤ j ∧ j ≤ maxNumber ∧ createId id used = .ok (mkId pre j) ∧
          mkId pre j ∉ used ∧ ∀ m, 1 ≤ m → m < j → mkId pre m ∈ used) ∨
        (createId id used = .error capacityMsg ∧
          ∀ m, 1 ≤ m → m ≤ maxNumber → mkId pre m ∈ used)) ∧
    (∀ (id : String) (used : List String), idPre id = some "line" →
      ∃ j, 1 ≤ j ∧ createId id used = .ok (mkId "line" j) ∧
        mkId "line" j ∉ used ∧ ∀ m, 1 ≤ m → m < j → mkId "line" m ∈ used) ∧
    (allocN "R" 50 []).isOk = true ∧
    allocN "R" 51 [] = .error capacityMsg :=
  ⟨fun _ pre used hp hne => createId_part_spec used hp hne,
    fun _ used hp => createId_line_spec used hp, by decide, by decide⟩

/-- C6: a rename from id A to a distinct id B marks B and releases A
(`changeId` is mark-then-release by definition); afterwards B is marked
used, A is not, and no other id's mark changed. -/
theorem changeId_mark_release (A B : String) (used : List String)
    (hnd : used.Nodup) (hAB : A ≠ B) :
    B ∈ changeId B A used ∧ A ∉ changeId B A used ∧
      ∀ x, x ≠ A → x ≠ B → (x ∈ changeId B A used ↔ x ∈ used) := by
  have h1 : changeId B A used = (markId B used).erase A := by
    rw [changeId, deleteId_fst]
  refine ⟨?_, ?_, ?_⟩
  · rw [h1, List.mem_erase_of_ne (Ne.symm hAB), mem_markId]
    exact Or.inl rfl
  · rw [h1]
    intro hmem
    exact (((markId_nodup hnd).mem_erase_iff).1 hmem).1 rfl
  · intro x hxA hxB
    rw [h1, List.mem_erase_of_ne hxA, mem_markId]
    simp [hxB]

/-- C6 witness: renaming the only used id "R_1" to "R_2". -/
theorem changeId_mark_release_witness :
    "R_2" ∈ changeId "R_2" "R_1" ["R_1"] ∧ "R_1" ∉ changeId "R_2" "R_1" ["R_1"] ∧
      ∀ x, x ≠ "R_1" → x ≠ "R_2" →
        (x ∈ changeId "R_2" "R_1" ["R_1"] ↔ x ∈ ["R_1"]) :=
  changeId_mark_release "R_1" "R_2" ["R_1"] (by decide) (by decide)

/-- C10: a rename whose new id equals the old one (A = A) leaves the id
unmarked: `changeId` first marks A (already present, a no-op) and then
releases A, removing the key it just confirmed. -/
theorem changeId_same_id_unused (A : String) (used : List String)
    (hnd : used.Nodup) : hasId A (changeId A A used) = false := by
  rw [hasId_eq_false, changeId, deleteId_fst]
  intro hmem
  exact (((markId_nodup hnd).mem_erase_iff).1 hmem).1 rfl

/-- C10 witness: self-rename of the only used id. -/
theorem changeId_same_id_unused_witness :
    hasId "R_1" (changeId "R_1" "R_1" ["R_1"]) = false :=
  changeId_same_id_unused "R_1" ["R_1"] (by decide)

end CircuitSim

namespace CircuitSim

/-- A part lookup whose extracted token matches no live part id throws
`EntityNotFound`. -/
theorem findPartComponent_not_found {v : String} {parts : List Handle} {tok : List Char}
    (hext : extractToken v.data = some tok)
    (hnone : ∀ x ∈ parts, x.id ≠ String.mk tok) :
    findPartComponent v parts = .error ("Can not find this part: " ++ v) := by
  unfold findPartComponent
  have hn : parts.find? (fun p => p.id = String.mk tok) = none :=
    List.find?_eq_none.2 (by simpa using hnone)
  simp only [hext, hn]

/-- A wire lookup whose raw query matches no live wire id throws
`EntityNotFound`. -/
theorem findLineComponent_not_found {v : String} {lines : List Handle}
    (hnone : ∀ x ∈ lines, x.id ≠ v) :
    findLineComponent v lines = .error ("Can not find this line: " ++ v) := by
  unfold findLineComponent
  have hn : lines.find? (fun l => l.id = v) = none :=
    List.find?_eq_none.2 (by simpa using hnone)
  simp only [hn]

/-- C7: after a creation (of a logically fresh entity) followed by the
destruction of that same entity, the id is no longer marked used and both
lookups report `EntityNotFound` — the id is released from the used set and
the handle is gone from its registry. -/
theorem create_destroy_lifecycle (s : ElecState) (k : EntityKind) (h : Handle)
    (s' : ElecState) (a : String)
    (hmH : s.mapHash.Nodup)
    (hcid : createdId k h s = .ok a)
    (hcr : created k h s = .ok s')
    (hfresh : a ∉ liveIds s)
    (htok : extractToken a.data = some a.data) :
    hasId a (beforeDestroy k a s').mapHash = false ∧
    findPartComponent a (beforeDestroy k a s').partComponents
      = .error ("Can not find this part: " ++ a) ∧
    findLineComponent a (beforeDestroy k a s').lineComponents
      = .error ("Can not find this line: " ++ a) := by
  have hmk : String.mk a.data = a := rfl
  have hfresh' : a ∉ s.partComponents.map Handle.id ∧ a ∉ s.lineComponents.map Handle.id := by
    rw [liveIds, List.mem_append] at hfresh
    exact ⟨fun hx => hfresh (Or.inl hx), fun hx => hfresh (Or.inr hx)⟩
  have hpart : ∀ x ∈ s.partComponents, x.id ≠ a :=
    fun x hx he => hfresh'.1 (List.mem_map.2 ⟨x, hx, he⟩)
  have hline : ∀ x ∈ s.lineComponents, x.id ≠ a :=
    fun x hx he => hfresh'.2 (List.mem_map.2 ⟨x, hx, he⟩)
  unfold created at hcr
  rw [hcid] at hcr
  cases k with
  | part pre =>
    simp only [] at hcr
    injection hcr with hcr
    subst hcr
    have herase :
        removeWhere (fun p => p.id = a) (s.partComponents ++ [{ h with id := a }])
          = s.partComponents := by
      rw [removeWhere, List.eraseP_append_right _ (by simpa using hpart)]
      simp
    refine ⟨?_, ?_, ?_⟩
    · show hasId a (deleteId a (markId a s.mapHash)).1 = false
      rw [hasId_eq_false, deleteId_fst]
      intro hmem
      exact (((markId_nodup hmH).mem_erase_iff).1 hmem).1 rfl
    · show findPartComponent a
          (removeWhere (fun p => p.id = a) (s.partComponents ++ [{ h with id := a }])) = _
      rw [herase]
      exact findPartComponent_not_found htok (by rw [hmk]; exact hpart)
    · exact findLineComponent_not_found hline
  | line =>
    simp only [] at hcr
    injection hcr with hcr
    subst hcr
    have herase :
        removeWhere (fun l => l.id = a) (s.lineComponents ++ [{ h with id := a }])
          = s.lineComponents := by
      rw [removeWhere, List.eraseP_append_right _ (by simpa using hline)]
      simp
    refine ⟨?_, ?_, ?_⟩
    · show hasId a (deleteId a (markId a s.mapHash)).1 = false
      rw [hasId_eq_false, deleteId_fst]
      intro hmem
      exact (((markId_nodup hmH).mem_erase_iff).1 hmem).1 rfl
    · exact findPartComponent_not_found htok (by rw [hmk]; exact hpart)
    · show findLineComponent a
          (removeWhere (fun l => l.id = a) (s.lineComponents ++ [{ h with id := a }])) = _
      rw [herase]
      exact findLineComponent_not_found hline

/-- C7 witness: allocate a part on the empty diagram (it gets id "R_1"),
destroy it, observe the id unused and both lookups failing. -/
theorem create_destroy_lifecycle_witness :
    hasId "R_1" (beforeDestroy (.part "R") "R_1"
        ⟨["R_1"], [⟨"R_1", []⟩], []⟩).mapHash = false ∧
    findPartComponent "R_1" (beforeDestroy (.part "R") "R_1"
        ⟨["R_1"], [⟨"R_1", []⟩], []⟩).partComponents
      = .error ("Can not find this part: " ++ "R_1") ∧
    findLineComponent "R_1" (beforeDestroy (.part "R") "R_1"
        ⟨["R_1"], [⟨"R_1", []⟩], []⟩).lineComponents
      = .error ("Can not find this line: " ++ "R_1") :=
  create_destroy_lifecycle emptyState (.part "R") ⟨"", []⟩
    ⟨["R_1"], [⟨"R_1", []⟩], []⟩ "R_1"
    (by decide) (by decide) (by decide) (by decide) (by decide)

end CircuitSim

namespace CircuitSim

/-- Split a true Boolean conjunction. -/
theorem band_elim {a b : Bool} (h : (a && b) = true) : a = true ∧ b = true := by
  rw [Bool.and_eq_true] at h
  exact h

/-- Enumerate the suffix characters. -/
theorem isSuffixChar_cases {c : Char} (h : isSuffixChar c = true) :
    c = 'p' ∨ c = 'u' ∨ c = 'μ' ∨ c = 'n' ∨ c = 'm' ∨ c = 'k' ∨ c = 'M' ∨ c = 'G' := by
  simpa [isSuffixChar, Bool.or_eq_true, or_assoc] using h

/-- A suffix character is not a digit. -/
theorem isSuffixChar_not_digit {c : Char} (h : isSuffixChar c = true) :
    c.isDigit = false := by
  rcases isSuffixChar_cases h with rfl | rfl | rfl | rfl | rfl | rfl | rfl | rfl <;> decide

/-- A digit is not a suffix character. -/
theorem isDigit_not_suffix {c : Char} (h : c.isDigit = true) :
    isSuffixChar c = false := by
  cases hsc : isSuffixChar c with
  | false => rfl
  | true => rw [isSuffixChar_not_digit hsc] at h; cases h

/-- A digit is not the decimal point. -/
theorem isDigit_ne_dot {c : Char} (h : c.isDigit = true) : c ≠ '.' := by
  rintro rfl
  exact absurd h (by decide)

/-- A suffix character is not an exponent marker. -/
theorem isSuffixChar_not_exp {c : Char} (h : isSuffixChar c = true) :
    (c = 'e' || c = 'E') = false := by
  rcases isSuffixChar_cases h with rfl | rfl | rfl | rfl | rfl | rfl | rfl | rfl <;> decide

/-- A digit run contains no exponent marker. -/
theorem digits1_no_exp {l : List Char} (h : l.all (fun c => c.isDigit) = true) :
    hasExpChar l = false := by
  rw [hasExpChar, List.any_eq_false]
  intro x hx hcon
  have hd : x.isDigit = true := List.all_eq_true.1 h x hx
  rcases (by simpa using hcon : x = 'e' ∨ x = 'E') with rfl | rfl <;>
    exact absurd hd (by decide)

/-- A mantissa tail contains no exponent marker. -/
theorem mantRest_no_exp : ∀ {r : List Char}, mantRest r = true → hasExpChar r = false := by
  intro r
  induction r with
  | nil => intro _; rfl
  | cons x t ih =>
    intro h
    rw [mantRest] at h
    by_cases hx : x = '.'
    · rw [if_pos hx] at h
      have ht : hasExpChar t = false :=
        digits1_no_exp (band_elim
          (show (!t.isEmpty && t.all (fun c => c.isDigit)) = true from h)).2
      subst hx
      simp [hasExpChar, List.any_cons] at ht ⊢
      exact ht
    · rw [if_neg hx] at h
      obtain ⟨hd, hm⟩ := band_elim h
      have ht := ih hm
      have hxe : (x = 'e' || x = 'E') = false := by
        rcases hxc : (x = 'e' || x = 'E') with _ | _
        · rfl
        · rcases (by simpa using hxc : x = 'e' ∨ x = 'E') with rfl | rfl <;>
            exact absurd hd (by decide)
      simp only [hasExpChar, List.any_cons] at ht ⊢
      simp [hxe, ht]

/-- A plain-shape numeral contains no exponent marker. -/
theorem plainShape_no_exp {l : List Char} (h : plainShape l = true) :
    hasExpChar l = false := by
  cases l with
  | nil => rfl
  | cons x t =>
    rw [plainShape] at h
    obtain ⟨hd, hm⟩ := band_elim h
    have hxe : (x = 'e' || x = 'E') = false := by
      rcases hxc : (x = 'e' || x = 'E') with _ | _
      · rfl
      · rcases (by simpa using hxc : x = 'e' ∨ x = 'E') with rfl | rfl <;>
          exact absurd hd (by decide)
    have ht := mantRest_no_exp hm
    simp only [hasExpChar, List.any_cons] at ht ⊢
    simp [hxe, ht]

/-- Appending a suffix character to a digit run yields a `sufFracRest`. -/
theorem digits_append_sufFracRest {c : Char} (hc : isSuffixChar c = true) :
    ∀ {t : List Char}, t.all (fun x => x.isDigit) = true →
      sufFracRest (t ++ [c]) = true := by
  intro t
  induction t with
  | nil => intro _; simp [sufFracRest, hc]
  | cons z zs ih =>
    intro h
    obtain ⟨hz, hzs⟩ := band_elim
      (show (z.isDigit && zs.all (fun x => x.isDigit)) = true from h)
    rw [List.cons_append, sufFracRest, if_neg (by simp [isDigit_not_suffix hz]), hz,
      ih hzs]
    rfl

/-- Appending a suffix character to a fractional digit run. -/
theorem digits1_append_sufFrac {c : Char} (hc : isSuffixChar c = true)
    {t : List Char} (h : digits1 t = true) : sufFrac (t ++ [c]) = true := by
  obtain ⟨hne, hall⟩ := band_elim
    (show (!t.isEmpty && t.all (fun x => x.isDigit)) = true from h)
  cases t with
  | nil => exact absurd hne (by decide)
  | cons y ys =>
    obtain ⟨hy, hys⟩ := band_elim
      (show (y.isDigit && ys.all (fun x => x.isDigit)) = true from hall)
    rw [List.cons_append, sufFrac, hy, digits_append_sufFracRest hc hys]
    rfl

/-- Appending a suffix character to a mantissa tail. -/
theorem mantRest_append_sufRest {c : Char} (hc : isSuffixChar c = true) :
    ∀ {r : List Char}, mantRest r = true → sufRest (r ++ [c]) = true := by
  intro r
  induction r with
  | nil => intro _; simp [sufRest, hc]
  | cons x t ih =>
    intro h
    rw [mantRest] at h
    by_cases hx : x = '.'
    · rw [if_pos hx] at h
      subst hx
      rw [List.cons_append, sufRest, if_neg (by simp [(by decide : isSuffixChar '.' = false)]),
        if_pos rfl]
      exact digits1_append_sufFrac hc h
    · rw [if_neg hx] at h
      obtain ⟨hd, hm⟩ := band_elim h
      rw [List.cons_append, sufRest, if_neg (by simp [isDigit_not_suffix hd]),
        if_neg hx, hd, ih hm]
      rfl

/-- A plain-decimal mantissa followed by one suffix character matches the
suffixed alternative. -/
theorem plainShape_append_suffix {l : List Char} {c : Char}
    (hl : plainShape l = true) (hc : isSuffixChar c = true) :
    suffixShape (l ++ [c]) = true := by
  cases l with
  | nil => cases hl
  | cons x t =>
    rw [plainShape] at hl
    obtain ⟨hd, hm⟩ := band_elim hl
    rw [List.cons_append, suffixShape, hd, mantRest_append_sufRest hc hm]
    rfl

end CircuitSim

namespace CircuitSim

/-- Parsing a plain-decimal mantissa with one SI suffix appended: the
matcher accepts via the suffixed alternative, no exponent branch fires, and
the result is the mantissa value scaled by the suffix power. -/
theorem numberParser_suffix {w s : String} {c : Char}
    (hw : w.data = s.data ++ [c])
    (hs : plainShape s.data = true) (hc : isSuffixChar c = true) :
    numberParser w = some (parseMantissa s.data * (10 : ℚ) ^ suffixExp c) := by
  have hsuf : suffixShape w.data = true := by
    rw [hw]
    exact plainShape_append_suffix hs hc
  have hmatch : numberMatcher w = true := by
    rw [numberMatcher, hsuf]
    simp
  have hnoe : hasExpChar w.data = false := by
    have h1 : hasExpChar s.data = false := plainShape_no_exp hs
    rw [hasExpChar] at h1 ⊢
    rw [hw, List.any_append, h1]
    simp [isSuffixChar_not_exp hc]
  rw [hw] at hnoe
  simp only [numberParser, hmatch, hnoe, hw, List.getLast?_concat,
    List.dropLast_concat, hc, Bool.not_true, Bool.false_eq_true, if_false, if_true,
    reduceIte]

/-- C4: for every SI-suffixed numeral accepted by the parser — a plain
decimal mantissa followed by one suffix character — the result is the
mantissa with the trailing suffix stripped, times 10 to the suffix's power,
the powers being p→−12, u→−9, μ→−9 (synonyms), n→−6, m→−3, k→3, M→6,
G→9. -/
theorem parse_suffix_strips_and_scales (s : String) (hs : plainShape s.data = true) :
    numberParser (s ++ "p") = some (parseMantissa s.data * (10 : ℚ) ^ (-12 : ℤ)) ∧
    numberParser (s ++ "u") = some (parseMantissa s.data * (10 : ℚ) ^ (-9 : ℤ)) ∧
    numberParser (s ++ "μ") = some (parseMantissa s.data * (10 : ℚ) ^ (-9 : ℤ)) ∧
    numberParser (s ++ "n") = some (parseMantissa s.data * (10 : ℚ) ^ (-6 : ℤ)) ∧
    numberParser (s ++ "m") = some (parseMantissa s.data * (10 : ℚ) ^ (-3 : ℤ)) ∧
    numberParser (s ++ "k") = some (parseMantissa s.data * (10 : ℚ) ^ (3 : ℤ)) ∧
    numberParser (s ++ "M") = some (parseMantissa s.data * (10 : ℚ) ^ (6 : ℤ)) ∧
    numberParser (s ++ "G") = some (parseMantissa s.data * (10 : ℚ) ^ (9 : ℤ)) := by
  refine ⟨?_, ?_, ?_, ?_, ?_, ?_, ?_, ?_⟩
  · rw [show (-12 : ℤ) = suffixExp 'p' from by decide]
    exact numberParser_suffix (by rw [String.data_append]) hs (by decide)
  · rw [show (-9 : ℤ) = suffixExp 'u' from by decide]
    exact numberParser_suffix (by rw [String.data_append]) hs (by decide)
  · rw [show (-9 : ℤ) = suffixExp 'μ' from by decide]
    exact numberParser_suffix (by rw [String.data_append]) hs (by decide)
  · rw [show (-6 : ℤ) = suffixExp 'n' from by decide]
    exact numberParser_suffix (by rw [String.data_append]) hs (by decide)
  · rw [show (-3 : ℤ) = suffixExp 'm' from by decide]
    exact numberParser_suffix (by rw [String.data_append]) hs (by decide)
  · rw [show (3 : ℤ) = suffixExp 'k' from by decide]
    exact numberParser_suffix (by rw [String.data_append]) hs (by decide)
  · rw [show (6 : ℤ) = suffixExp 'M' from by decide]
    exact numberParser_suffix (by rw [String.data_append]) hs (by decide)
  · rw [show (9 : ℤ) = suffixExp 'G' from by decide]
    exact numberParser_suffix (by rw [String.data_append]) hs (by decide)

/-- C4 witness: the mantissa "2.2" with each table row exercised through
the μ synonym and the k row. -/
theorem parse_suffix_strips_and_scales_witness :
    numberParser ("2.2" ++ "u") = some (parseMantissa "2.2".data * (10 : ℚ) ^ (-9 : ℤ)) ∧
    numberParser ("2.2" ++ "k") = some (parseMantissa "2.2".data * (10 : ℚ) ^ (3 : ℤ)) :=
  ⟨(parse_suffix_strips_and_scales "2.2" (by decide)).2.1,
    (parse_suffix_strips_and_scales "2.2" (by decide)).2.2.2.2.2.1⟩

/-- C3, counterexample: the claim states Parse("2.2u") = 0.0000022
(= 22/10⁷), but the exp table of the source maps `u` to −9, so the parse
is 2.2·10⁻⁹ = 22/10¹⁰. -/
theorem parse_u_suffix_counterexample :
    numberParser "2.2u" = some (22 / 10 ^ 10) ∧ (22 / 10 ^ 10 : ℚ) ≠ 22 / 10 ^ 7 :=
  ⟨by decide, by decide⟩

/-- C3 (amended): the representative parses are Parse("1k") = 1000,
Parse("1.5M") = 1500000, Parse("2.2u") = 2.2·10⁻⁹ (the legacy table maps
u, like μ, to −9), Parse("1e-3") = 0.001, Parse("3p") = 3·10⁻¹². -/
theorem parse_representative_values :
    numberParser "1k" = some 1000 ∧
    numberParser "1.5M" = some 1500000 ∧
    numberParser "2.2u" = some (22 / 10 ^ 10) ∧
    numberParser "1e-3" = some (1 / 10 ^ 3) ∧
    numberParser "3p" = some (3 / 10 ^ 12) :=
  ⟨by decide, by decide, by decide, by decide, by decide⟩

/-- C5: input matching none of the three literal shapes parses to the
distinguished not-a-number sentinel — the parser is a total function into
`Option`, so it never throws; in particular "abc", "1x" and "--5". -/
theorem parse_malformed_not_a_number :
    (∀ s : String, numberMatcher s = false → numberParser s = none) ∧
    numberParser "abc" = none ∧ numberParser "1x" = none ∧
    numberParser "--5" = none := by
  refine ⟨fun s hm => ?_, by decide, by decide, by decide⟩
  simp [numberParser, hm]

/-- C9: rounding to six significant digits on the stated examples, and the
thrown `InvalidArgument` on a NaN input. -/
theorem toRound_examples :
    toRound (some 123456789) 6 = .ok 123457000 ∧
    toRound (some (1234567 / 10 ^ 10)) 6 = .ok (123457 / 10 ^ 9) ∧
    toRound (some (-42)) 6 = .ok (-42) ∧
    toRound none 6 = .error "(number) cannot run .toRound() on NaN" :=
  ⟨by decide, by decide, by decide, by decide⟩

end CircuitSim

namespace CircuitSim

/-- C8, counterexample: the claim says both lookups normalize the query by
token extraction; but `findLineComponent` compares the raw string, so free
text containing the live wire id "line_1" — whose extracted token is
exactly that id — fails to find the wire. -/
theorem findById_normalize_counterexample :
    extractToken (String.data "q line_1") = some (String.data "line_1") ∧
    (⟨"line_1", []⟩ : Handle) ∈ [(⟨"line_1", []⟩ : Handle)] ∧
    findLineComponent "q line_1" [⟨"line_1", []⟩]
      = .error ("Can not find this line: " ++ "q line_1") :=
  ⟨by decide, by decide, by decide⟩

/-- C8 (amended): `findPartComponent` normalizes its query by extracting
the `<letters>_<alphanumeric>` token, so free text whose token equals a
live part's id finds a part with that id; `findLineComponent` performs no
normalization — it finds a wire exactly when the raw query equals its id,
and fails on any query that is not verbatim a live wire id. -/
theorem findById_normalization :
    (∀ (q : String) (parts : List Handle) (p : Handle),
      p ∈ parts → extractToken q.data = some p.id.data →
        ∃ r, findPartComponent q parts = .ok r ∧ r.id = p.id) ∧
    (∀ (q : String) (lines : List Handle) (l : Handle),
      l ∈ lines → l.id = q → ∃ r, findLineComponent q lines = .ok r ∧ r.id = q) ∧
    (∀ (q : String) (lines : List Handle), (∀ l ∈ lines, l.id ≠ q) →
      findLineComponent q lines = .error ("Can not find this line: " ++ q)) := by
  refine ⟨?_, ?_, ?_⟩
  · intro q parts p hp hext
    have hmk : String.mk p.id.data = p.id := rfl
    cases hf : parts.find? (fun x => x.id = String.mk p.id.data) with
    | none =>
      exact absurd (by rw [hmk]; simp) (List.find?_eq_none.1 hf p hp)
    | some r =>
      refine ⟨r, ?_, ?_⟩
      · unfold findPartComponent
        simp only [hext, hf]
      · have := List.find?_some hf
        rw [hmk] at this
        simpa using this
  · intro q lines l hl hid
    cases hf : lines.find? (fun x => x.id = q) with
    | none =>
      exact absurd (by simpa using hid) (List.find?_eq_none.1 hf l hl)
    | some r =>
      refine ⟨r, ?_, ?_⟩
      · unfold findLineComponent
        simp only [hf]
      · simpa using List.find?_some hf
  · intro q lines hnone
    exact findLineComponent_not_found hnone

end CircuitSim
